import Mathlib

/-!
Shallow embedding of the `merkle-tree-rs` repository (file `src/merkle_tree.rs`).

The Rust code stores a fixed-depth binary Merkle tree as a breadth-first
array `nodes : Vec<[u8; 32]>` together with its `depth`.  The cryptographic
hash `Sha3_256` is only ever used through the pattern
`hasher.update(left); hasher.update(right); hasher.finalize()`, i.e. as an
opaque combining function on two digests; the embedding is therefore
parametrised by an arbitrary digest type `α` and combining function
`H : α → α → α` (hash of the concatenation, left argument first).

Rust panics (out-of-bounds indexing, the explicit depth check, arithmetic
underflow on `usize`) are modelled by `Option`: an operation that panics
returns `none`.  Every array read and write goes through `getNode` /
`setNode`, which fail exactly when the Rust indexing would panic.
`usize` subtraction is modelled by truncated `Nat` subtraction; the only
place where Rust underflow semantics could differ (computing the parent of
the root in `set` on a depth-1 tree) fails in the embedding at the very
next array access, just as every Rust build mode fails on that call.
-/

/-- Embedding of `struct MerkleTree { depth: usize, nodes: Vec<[u8; 32]> }`,
with the digest type abstracted to `α`. -/
structure MerkleTree (α : Type) where
  depth : Nat
  nodes : List α
deriving DecidableEq

namespace MerkleTree

/-- Embedding of `MerkleTree::nodes_in_tree`: `(1 << depth) - 1`. -/
def nodes_in_tree (depth : Nat) : Nat := 2 ^ depth - 1

/-- Embedding of `MerkleTree::index`: `nodes_in_tree(depth) + offset`. -/
def index (depth offset : Nat) : Nat := nodes_in_tree depth + offset

/-- Embedding of `MerkleTree::parent_index`: `index(depth - 1, offset / 2)`. -/
def parent_index (depth offset : Nat) : Nat := index (depth - 1) (offset / 2)

/-- Embedding of `MerkleTree::first_child_index`: `index(depth + 1, offset * 2)`. -/
def first_child_index (depth offset : Nat) : Nat := index (depth + 1) (offset * 2)

/-- Embedding of `MerkleTree::second_child_index`: `index(depth + 1, offset * 2 + 1)`. -/
def second_child_index (depth offset : Nat) : Nat := index (depth + 1) (offset * 2 + 1)

/-- Fuel-driven halving recursion computing `floor(log2 x)` for `x > 0`
and `0` for `x = 0` (the fuel argument only makes the recursion
structural; `x` halvings always suffice). -/
def log2Aux : Nat → Nat → Nat
  | 0, _ => 0
  | fuel + 1, x => if 2 ≤ x then log2Aux fuel (x / 2) + 1 else 0

/-- Embedding of `MerkleTree::log2`, which computes `floor(log2 x)` for
`x > 0` via leading-zero counting and returns `0` for `x = 0`; `log2Aux`
computes exactly that function (see `log2_eq_natLog2`). -/
def log2 (x : Nat) : Nat := log2Aux x x

/-- Embedding of `MerkleTree::depth_offset`:
`(log2(index + 1), index - nodes_in_tree(log2(index + 1)))`. -/
def depth_offset (i : Nat) : Nat × Nat := (log2 (i + 1), i - nodes_in_tree (log2 (i + 1)))

/-- Rust `self.nodes[i]` as a read: fails (Rust: panics) when out of bounds. -/
def getNode (ns : List α) (i : Nat) : Option α := ns[i]?

/-- Rust `self.nodes[i] = v`: fails (Rust: panics) when out of bounds,
otherwise returns the updated array. -/
def setNode (ns : List α) (i : Nat) (v : α) : Option (List α) :=
  if i < ns.length then some (ns.set i v) else none

/-- Embedding of the repeated Rust block
`hasher.update(nodes[first_child_index(d, off)]); hasher.update(nodes[second_child_index(d, off)]); hasher.finalize()`:
hash of the two children of node `(d, off)`, left child first. -/
def combineChildren (H : α → α → α) (ns : List α) (d off : Nat) : Option α :=
  (getNode ns (first_child_index d off)).bind fun l =>
    (getNode ns (second_child_index d off)).map fun r => H l r

/-- Inner loop of `MerkleTree::new`:
`for i in 0..count { nodes[index(d, start + i)] = h }` (called with
`start = 0`, `count = 1 << d`). -/
def writeLayer (d : Nat) (h : α) : List α → Nat → Nat → Option (List α)
  | ns, _, 0 => some ns
  | ns, start, c + 1 =>
    (setNode ns (index d start) h).bind fun ns1 => writeLayer d h ns1 (start + 1) c

/-- One iteration of the layer loop of `MerkleTree::new`: hash the two
children of node `(d, 0)` and broadcast the digest to the whole layer `d`. -/
def processLayer (H : α → α → α) (ns : List α) (d : Nat) : Option (List α) :=
  (combineChildren H ns d 0).bind fun h => writeLayer d h ns 0 (2 ^ d)

/-- Layer loop of `MerkleTree::new`: `for d in (0..depth - 1).rev()`,
processing layers `d, d - 1, ..., 0`. -/
def buildLayers (H : α → α → α) : List α → Nat → Option (List α)
  | ns, 0 => processLayer H ns 0
  | ns, d + 1 => (processLayer H ns (d + 1)).bind fun ns1 => buildLayers H ns1 d

/-- Embedding of `MerkleTree::new`: fails (Rust: panics) for `depth < 1`,
otherwise fills `2^depth - 1` slots with `initial_value` and collapses the
layers from `depth - 2` down to `0`. -/
def new (H : α → α → α) (depth : Nat) (initial_value : α) : Option (MerkleTree α) :=
  if depth < 1 then none
  else
    match depth - 1 with
    | 0 => some ⟨depth, List.replicate (nodes_in_tree depth) initial_value⟩
    | k + 1 =>
      (buildLayers H (List.replicate (nodes_in_tree depth) initial_value) k).map
        fun ns => ⟨depth, ns⟩

/-- Embedding of `MerkleTree::root_hash`: `&self.nodes[0]`. -/
def root_hash (t : MerkleTree α) : Option α := getNode t.nodes 0

/-- Embedding of `MerkleTree::num_leaves`: `1 << (self.depth - 1)`. -/
def num_leaves (t : MerkleTree α) : Nat := 2 ^ (t.depth - 1)

/-- One iteration of the update loop of `MerkleTree::set`: recompute the
hash of node `(d, off)` from its two children and store it. -/
def recomputeNode (H : α → α → α) (ns : List α) (d off : Nat) : Option (List α) :=
  (combineChildren H ns d off).bind fun h => setNode ns (index d off) h

/-- Update loop of `MerkleTree::set`: starting from `(parent_layer,
parent_offset)`, recompute each ancestor and stop after layer `0`. -/
def setLoop (H : α → α → α) : List α → Nat → Nat → Option (List α)
  | ns, 0, po => recomputeNode H ns 0 po
  | ns, pl + 1, po =>
    (recomputeNode H ns (pl + 1) po).bind fun ns1 => setLoop H ns1 pl (po / 2)

/-- Embedding of `MerkleTree::set`: write the leaf at
`index(depth - 1, offset)`, then walk from
`depth_offset(parent_index(depth - 1, offset))` up to the root. -/
def set (H : α → α → α) (t : MerkleTree α) (offset : Nat) (value : α) :
    Option (MerkleTree α) :=
  (setNode t.nodes (index (t.depth - 1) offset) value).bind fun ns =>
    let p := depth_offset (parent_index (t.depth - 1) offset)
    (setLoop H ns p.1 p.2).map fun ns1 => ⟨t.depth, ns1⟩

/-- Sibling offset computed inside `MerkleTree::create_proof`:
`offset + 1` when `offset` is even, `offset - 1` otherwise. -/
def sibling_offset (offset : Nat) : Nat := if offset % 2 = 0 then offset + 1 else offset - 1

/-- Loop of `MerkleTree::create_proof`: `while current_layer > 0`, record
the sibling digest and whether the current node is the left child, then
move to the parent. -/
def proofLoop (ns : List α) : Nat → Nat → Option (List (α × Bool))
  | _, 0 => some []
  | co, cl + 1 =>
    (getNode ns (index (cl + 1) (sibling_offset co))).bind fun sib =>
      (proofLoop ns (co / 2) cl).map fun rest => (sib, decide (co % 2 = 0)) :: rest

/-- Embedding of `MerkleTree::create_proof`: run the proof loop from the
leaf layer `self.depth - 1` at `offset`. It takes `self` immutably and
returns only the proof: the tree is not mutated. -/
def create_proof (t : MerkleTree α) (offset : Nat) : Option (List (α × Bool)) :=
  proofLoop t.nodes offset (t.depth - 1)

/-- Loop of `MerkleTree::verify_proof`: fold the proof pairs over the
accumulator, hashing `(acc, sibling)` when the flag marks the current node
as left child, `(sibling, acc)` otherwise. -/
def verifyLoop (H : α → α → α) : α → List (α × Bool) → α
  | cur, [] => cur
  | cur, (h, isLeft) :: rest => verifyLoop H (if isLeft then H cur h else H h cur) rest

/-- Embedding of `MerkleTree::verify_proof`. The Rust method takes `&self`
but never reads it; the embedding keeps the parameter to mirror the
signature. It is total: it always returns a digest. -/
def verify_proof (_t : MerkleTree α) (H : α → α → α) (value : α)
    (proof : List (α × Bool)) : α :=
  verifyLoop H value proof

/-- Specification-side denotation (following the description of full
per-node recomputation in the spec): the digest of the node of height `h`
above the leaf layer whose leftmost descendant leaf is `leaves (2^h * i)`.
Height `0` is a leaf; the node `(d, i)` of a depth-`D` tree has height
`D - 1 - d`, and the root of the tree with leaf assignment `leaves` is
`nodeValue H leaves (D - 1) 0`. -/
def nodeValue (H : α → α → α) (leaves : Nat → α) : Nat → Nat → α
  | 0, i => leaves i
  | h + 1, i => H (nodeValue H leaves h (2 * i)) (nodeValue H leaves h (2 * i + 1))

/-- Specification-side iterated hash: combining `v` with itself `k` times,
one combination per layer. -/
def iteratedHash (H : α → α → α) : Nat → α → α
  | 0, v => v
  | k + 1, v => H (iteratedHash H k v) (iteratedHash H k v)

/-- A node array of a depth-`D` tree is fully described by a leaf
assignment `L` when it has the right length and every node `(d, i)` stores
the recursively recomputed digest of its subtree. -/
def describes (H : α → α → α) (D : Nat) (L : Nat → α) (ns : List α) : Prop :=
  ns.length = 2 ^ D - 1 ∧
    ∀ d i, d < D → i < 2 ^ d → ns[index d i]? = some (nodeValue H L (D - 1 - d) i)

/-- Invariant 1 of the spec, read off the code: every non-leaf node stores
the hash of the concatenation of its two children, left child first. -/
def hashInvariant (H : α → α → α) (t : MerkleTree α) : Prop :=
  ∀ d i, d + 1 < t.depth → i < 2 ^ d →
    ∃ l r, getNode t.nodes (first_child_index d i) = some l ∧
      getNode t.nodes (second_child_index d i) = some r ∧
      getNode t.nodes (index d i) = some (H l r)

/-- Trees obtained by a successful construction followed by any sequence
of successful in-range leaf updates. -/
inductive Reachable (H : α → α → α) : MerkleTree α → Prop
  | base (depth : Nat) (v : α) (t : MerkleTree α) :
      new H depth v = some t → Reachable H t
  | step (t : MerkleTree α) (off : Nat) (v : α) (t' : MerkleTree α) :
      Reachable H t → off < num_leaves t → set H t off v = some t' → Reachable H t'

/-- Concrete combining function used to evaluate the embedding on small
inputs (any function of two arguments works; this one is not commutative,
so it distinguishes left and right children). -/
def Hc : Nat → Nat → Nat := fun a b => a + 2 * b + 1

/-- The depth-1 tree `new Hc 1 5`: a single node holding the leaf value. -/
def t1c : MerkleTree Nat := ⟨1, [5]⟩

/-- The depth-2 tree `new Hc 2 5`: root `Hc 5 5 = 16` over leaves `5, 5`. -/
def t2c : MerkleTree Nat := ⟨2, [16, 5, 5]⟩

/-- The result of `set Hc t2c 0 7`: leaf 0 becomes `7`, root `Hc 7 5 = 18`. -/
def t2c' : MerkleTree Nat := ⟨2, [18, 7, 5]⟩

/-! Index arithmetic -/

lemma two_pow_pos (d : Nat) : 0 < 2 ^ d := Nat.pos_pow_of_pos d (by norm_num)

lemma two_pow_le {d e : Nat} (h : d ≤ e) : 2 ^ d ≤ 2 ^ e :=
  Nat.pow_le_pow_right (by norm_num) h

lemma index_succ_offset (d i : Nat) : index d (i + 1) = index d i + 1 := rfl

lemma index_lower (d i : Nat) : nodes_in_tree d ≤ index d i := Nat.le_add_right _ _

lemma index_upper {d i : Nat} (h : i < 2 ^ d) : index d i < nodes_in_tree (d + 1) := by
  have h1 := two_pow_pos d
  have h2 : 2 ^ (d + 1) = 2 ^ d * 2 := pow_succ 2 d
  unfold index nodes_in_tree
  omega

lemma nodes_in_tree_mono {d e : Nat} (h : d ≤ e) : nodes_in_tree d ≤ nodes_in_tree e := by
  have := two_pow_le h
  unfold nodes_in_tree
  omega

lemma index_lt_nodes_in_tree {d i D : Nat} (hd : d < D) (hi : i < 2 ^ d) :
    index d i < nodes_in_tree D :=
  lt_of_lt_of_le (index_upper hi) (nodes_in_tree_mono hd)

lemma index_inj {d i d' i' : Nat} (hi : i < 2 ^ d) (hi' : i' < 2 ^ d')
    (h : index d i = index d' i') : d = d' ∧ i = i' := by
  have hdd : d = d' := by
    by_contra hne
    rcases Nat.lt_or_ge d d' with hlt | hge
    · have h1 := index_upper hi
      have h2 := nodes_in_tree_mono (show d + 1 ≤ d' from hlt)
      have h3 := index_lower d' i'
      omega
    · have h1 := index_upper hi'
      have h2 := nodes_in_tree_mono (show d' + 1 ≤ d by omega)
      have h3 := index_lower d i
      omega
  refine ⟨hdd, ?_⟩
  subst hdd
  unfold index at h
  omega

lemma log2Aux_eq : ∀ fuel x, x ≤ fuel → log2Aux fuel x = Nat.log2 x := by
  intro fuel
  induction fuel with
  | zero =>
    intro x hx
    have hx0 : x = 0 := by omega
    subst hx0
    rw [Nat.log2]
    norm_num [log2Aux]
  | succ f ih =>
    intro x hx
    show (if 2 ≤ x then log2Aux f (x / 2) + 1 else 0) = Nat.log2 x
    by_cases h2 : 2 ≤ x
    · have hdiv : x / 2 < x := Nat.div_lt_self (by omega) (by norm_num)
      rw [if_pos h2, ih (x / 2) (by omega)]
      conv_rhs => rw [Nat.log2]
      rw [if_pos (show x ≥ 2 from h2)]
    · rw [if_neg h2]
      rw [Nat.log2, if_neg (by omega)]

lemma log2_eq_natLog2 (x : Nat) : log2 x = Nat.log2 x := log2Aux_eq x x (le_refl x)

lemma depth_offset_index {d i : Nat} (hi : i < 2 ^ d) : depth_offset (index d i) = (d, i) := by
  have h1 := two_pow_pos d
  have h2 : index d i + 1 = 2 ^ d + i := by unfold index nodes_in_tree; omega
  have h3 : log2 (index d i + 1) = d := by
    rw [h2, log2_eq_natLog2, Nat.log2_eq_log_two]
    exact Nat.log_eq_of_pow_le_of_lt_pow (Nat.le_add_right _ _)
      (by rw [pow_succ]; omega)
  unfold depth_offset
  rw [h3]
  have h4 : index d i - nodes_in_tree d = i := by unfold index; omega
  rw [h4]

/-! Construction -/

lemma writeLayer_spec (d : Nat) (h : α) (c : Nat) :
    ∀ (ns : List α) (start : Nat), index d start + c ≤ ns.length →
      ∃ ns', writeLayer d h ns start c = some ns' ∧ ns'.length = ns.length ∧
        (∀ k, index d start ≤ k → k < index d start + c → ns'[k]? = some h) ∧
        (∀ k, k < index d start ∨ index d start + c ≤ k → ns'[k]? = ns[k]?) := by
  induction c with
  | zero =>
    intro ns start _
    exact ⟨ns, rfl, rfl, fun k h1 h2 => by omega, fun k _ => rfl⟩
  | succ c ih =>
    intro ns start hle
    have hlt : index d start < ns.length := by omega
    have hstep : index d (start + 1) = index d start + 1 := index_succ_offset d start
    obtain ⟨ns', heq, hlen, hin, hout⟩ :=
      ih (ns.set (index d start) h) (start + 1)
        (by rw [List.length_set]; omega)
    refine ⟨ns', ?_, by rw [hlen, List.length_set], ?_, ?_⟩
    · simp only [writeLayer, setNode, hlt, if_pos, Option.bind_some]
      exact heq
    · intro k h1 h2
      rcases Nat.eq_or_lt_of_le h1 with h3 | h3
      · rw [hout k (Or.inl (by omega)), ← h3, List.getElem?_set_self hlt]
      · exact hin k (by omega) (by omega)
    · intro k hk
      rw [hout k (by omega), List.getElem?_set_ne (by omega)]

lemma processLayer_spec (H : α → α → α) (ns : List α) {d : Nat} {x y : α}
    (hlen : nodes_in_tree (d + 1) ≤ ns.length)
    (hx : ns[index (d + 1) 0]? = some x) (hy : ns[index (d + 1) 1]? = some y) :
    ∃ ns', processLayer H ns d = some ns' ∧ ns'.length = ns.length ∧
      (∀ i, i < 2 ^ d → ns'[index d i]? = some (H x y)) ∧
      (∀ k, k < nodes_in_tree d ∨ nodes_in_tree (d + 1) ≤ k → ns'[k]? = ns[k]?) := by
  have hspan : index d 0 + 2 ^ d = nodes_in_tree (d + 1) := by
    have h2 : 2 ^ (d + 1) = 2 ^ d * 2 := pow_succ 2 d
    have := two_pow_pos d
    unfold index nodes_in_tree
    omega
  obtain ⟨ns', heq, hlen', hin, hout⟩ :=
    writeLayer_spec d (H x y) (2 ^ d) ns 0 (by omega)
  refine ⟨ns', ?_, hlen', ?_, ?_⟩
  · simp only [processLayer, combineChildren, first_child_index, second_child_index, getNode,
      Nat.mul_zero, Nat.zero_mul, hx, hy, Option.bind_some, Option.map_some, Option.some_bind]
    exact heq
  · intro i hi
    exact hin (index d i) (by unfold index; omega) (by unfold index at hspan ⊢; omega)
  · intro k hk
    exact hout k (by unfold index at hspan ⊢; omega)

lemma buildLayers_spec (H : α → α → α) {D : Nat} (v : α) (d : Nat) :
    ∀ ns : List α, d + 1 < D → ns.length = 2 ^ D - 1 →
      (∀ d' i, d' < D → i < 2 ^ d' →
        ns[index d' i]? = some (if d < d' then iteratedHash H (D - 1 - d') v else v)) →
      ∃ ns', buildLayers H ns d = some ns' ∧ ns'.length = 2 ^ D - 1 ∧
        ∀ d' i, d' < D → i < 2 ^ d' →
          ns'[index d' i]? = some (iteratedHash H (D - 1 - d') v) := by
  induction d with
  | zero =>
    intro ns hD hlen hns
    have h1 : (1 : Nat) < 2 ^ 1 := by norm_num
    have hx := hns 1 0 (by omega) (by norm_num)
    have hy := hns 1 1 (by omega) h1
    simp only [if_pos Nat.zero_lt_one] at hx hy
    obtain ⟨ns', heq, hlen', hin, hout⟩ := processLayer_spec H ns
      (by rw [hlen]; exact nodes_in_tree_mono (by omega)) hx hy
    have hroot : H (iteratedHash H (D - 1 - 1) v) (iteratedHash H (D - 1 - 1) v) =
        iteratedHash H (D - 1 - 0) v := by
      have h2 : D - 1 - 0 = (D - 1 - 1) + 1 := by omega
      rw [h2]
      rfl
    refine ⟨ns', heq, by omega, ?_⟩
    intro d' i hd' hi
    match d' with
    | 0 =>
      have hi0 : i = 0 := by
        have : (2 : Nat) ^ 0 = 1 := by norm_num
        omega
      subst hi0
      rw [hin 0 (by norm_num), hroot]
    | d'' + 1 =>
      rw [hout (index (d'' + 1) i) (Or.inr (le_trans (nodes_in_tree_mono (by omega))
        (index_lower _ _)))]
      have := hns (d'' + 1) i hd' hi
      simpa using this
  | succ e ih =>
    intro ns hD hlen hns
    have hx := hns (e + 2) 0 (by omega) (two_pow_pos _)
    have hy := hns (e + 2) 1 (by omega) (by
      have : (2 : Nat) ^ 1 ≤ 2 ^ (e + 2) := two_pow_le (by omega)
      norm_num at this
      omega)
    simp only [if_pos (by omega : e + 1 < e + 2)] at hx hy
    obtain ⟨ns1, heq1, hlen1, hin1, hout1⟩ := processLayer_spec H ns
      (by rw [hlen]; exact nodes_in_tree_mono (by omega)) hx hy
    have hnode : H (iteratedHash H (D - 1 - (e + 2)) v) (iteratedHash H (D - 1 - (e + 2)) v) =
        iteratedHash H (D - 1 - (e + 1)) v := by
      have h2 : D - 1 - (e + 1) = (D - 1 - (e + 2)) + 1 := by omega
      rw [h2]
      rfl
    have hprem : ∀ d' i, d' < D → i < 2 ^ d' →
        ns1[index d' i]? = some (if e < d' then iteratedHash H (D - 1 - d') v else v) := by
      intro d' i hd' hi
      rcases Nat.lt_trichotomy d' (e + 1) with hc | hc | hc
      · rw [hout1 (index d' i) (Or.inl (lt_of_lt_of_le (index_upper hi)
          (nodes_in_tree_mono (by omega))))]
        have := hns d' i hd' hi
        rw [if_neg (by omega)] at this
        rw [this, if_neg (by omega)]
      · subst hc
        rw [hin1 i hi, hnode, if_pos (by omega)]
      · rw [hout1 (index d' i) (Or.inr (le_trans (nodes_in_tree_mono (by omega))
          (index_lower _ _)))]
        have := hns d' i hd' hi
        rw [if_pos (by omega)] at this
        rw [this, if_pos (by omega)]
    obtain ⟨ns', heq', hlen', hns'⟩ := ih ns1 (by omega) (by omega) hprem
    refine ⟨ns', ?_, hlen', hns'⟩
    simp only [buildLayers, heq1, Option.bind_some]
    exact heq'

lemma new_spec (H : α → α → α) (D : Nat) (v : α) (hD : 1 ≤ D) :
    ∃ t, new H D v = some t ∧ t.depth = D ∧ t.nodes.length = 2 ^ D - 1 ∧
      ∀ d i, d < D → i < 2 ^ d → t.nodes[index d i]? = some (iteratedHash H (D - 1 - d) v) := by
  match D, hD with
  | 1, _ =>
    refine ⟨⟨1, List.replicate (nodes_in_tree 1) v⟩, rfl, rfl, by simp [nodes_in_tree], ?_⟩
    intro d i hd hi
    have hd0 : d = 0 := by omega
    subst hd0
    have hi0 : i = 0 := by
      have : (2 : Nat) ^ 0 = 1 := by norm_num
      omega
    subst hi0
    have : index 0 0 < 1 := by unfold index nodes_in_tree; norm_num
    rw [List.getElem?_replicate_of_lt (by simpa [nodes_in_tree] using this)]
    rfl
  | k + 2, _ =>
    have hlen : (List.replicate (nodes_in_tree (k + 2)) v).length = 2 ^ (k + 2) - 1 := by
      simp [nodes_in_tree]
    have hprem : ∀ d' i, d' < k + 2 → i < 2 ^ d' →
        (List.replicate (nodes_in_tree (k + 2)) v)[index d' i]? =
          some (if k < d' then iteratedHash H (k + 2 - 1 - d') v else v) := by
      intro d' i hd' hi
      rw [List.getElem?_replicate_of_lt (index_lt_nodes_in_tree hd' hi)]
      rcases Nat.lt_or_ge k d' with hc | hc
      · have hd'' : d' = k + 1 := by omega
        subst hd''
        rw [if_pos hc]
        have : k + 2 - 1 - (k + 1) = 0 := by omega
        rw [this]
        rfl
      · rw [if_neg (by omega)]
    obtain ⟨ns', heq, hlen', hns'⟩ :=
      buildLayers_spec H v k (List.replicate (nodes_in_tree (k + 2)) v) (by omega) hlen hprem
    refine ⟨⟨k + 2, ns'⟩, ?_, rfl, hlen', hns'⟩
    have hred : k + 2 - 1 = k + 1 := by omega
    simp only [new, if_neg (by omega : ¬ k + 2 < 1), hred, heq, Option.map_some]
    rfl

lemma nodeValue_const (H : α → α → α) (v : α) (h : Nat) :
    ∀ i, nodeValue H (fun _ => v) h i = iteratedHash H h v := by
  induction h with
  | zero => intro i; rfl
  | succ h ih =>
    intro i
    simp only [nodeValue, iteratedHash, ih]

lemma new_describes {H : α → α → α} {D : Nat} {v : α} {t : MerkleTree α}
    (h : new H D v = some t) :
    1 ≤ D ∧ t.depth = D ∧ describes H D (fun _ => v) t.nodes := by
  have hD : 1 ≤ D := by
    by_contra hc
    rw [new, if_pos (by omega)] at h
    exact Option.noConfusion h
  obtain ⟨t0, heq0, hdep0, hlen0, hval0⟩ := new_spec H D v hD
  rw [heq0] at h
  obtain rfl : t0 = t := Option.some.inj h
  refine ⟨hD, hdep0, hlen0, ?_⟩
  intro d i hd hi
  rw [hval0 d i hd hi, nodeValue_const]

/-! Leaf update -/

lemma div_pow_step {po p d : Nat} (h : d ≤ p) :
    po / 2 / 2 ^ (p - d) = po / 2 ^ (p + 1 - d) := by
  rw [Nat.div_div_eq_div_mul]
  congr 1
  have h1 : p + 1 - d = (p - d) + 1 := by omega
  rw [h1, pow_succ, Nat.mul_comm]

lemma recomputeNode_some (H : α → α → α) {ns : List α} {d off : Nat} {l r : α}
    (hl : getNode ns (first_child_index d off) = some l)
    (hr : getNode ns (second_child_index d off) = some r)
    (hidx : index d off < ns.length) :
    recomputeNode H ns d off = some (ns.set (index d off) (H l r)) := by
  simp [recomputeNode, combineChildren, hl, hr, setNode, hidx]

lemma recomputeNode_inv {H : α → α → α} {ns ns1 : List α} {d off : Nat}
    (h : recomputeNode H ns d off = some ns1) :
    ∃ l r, getNode ns (first_child_index d off) = some l ∧
      getNode ns (second_child_index d off) = some r ∧
      index d off < ns.length ∧ ns1 = ns.set (index d off) (H l r) := by
  unfold recomputeNode combineChildren at h
  rcases hl : getNode ns (first_child_index d off) with _ | l
  · rw [hl] at h
    exact Option.noConfusion h
  rcases hr : getNode ns (second_child_index d off) with _ | r
  · rw [hl, hr] at h
    exact Option.noConfusion h
  rw [hl, hr] at h
  simp only [Option.map_some', Option.some_bind, setNode] at h
  by_cases hidx : index d off < ns.length
  · rw [if_pos hidx] at h
    exact ⟨l, r, rfl, rfl, hidx, (Option.some.inj h).symm⟩
  · rw [if_neg hidx] at h
    exact Option.noConfusion h

lemma setLoop_changed (H : α → α → α) :
    ∀ (pl : Nat) (ns : List α) (po : Nat) (ns' : List α),
      setLoop H ns pl po = some ns' →
      ns'.length = ns.length ∧
        ∀ k, (∀ d, d ≤ pl → k ≠ index d (po / 2 ^ (pl - d))) → ns'[k]? = ns[k]? := by
  intro pl
  induction pl with
  | zero =>
    intro ns po ns' h
    obtain ⟨l, r, _, _, hidx, rfl⟩ := recomputeNode_inv h
    refine ⟨List.length_set .., ?_⟩
    intro k hk
    have hne : index 0 po ≠ k := by
      have := hk 0 (le_refl 0)
      simpa using this.symm
    exact List.getElem?_set_ne hne
  | succ p ih =>
    intro ns po ns' h
    simp only [setLoop] at h
    rcases h1 : recomputeNode H ns (p + 1) po with _ | ns1
    · rw [h1] at h
      exact Option.noConfusion h
    rw [h1] at h
    simp only [Option.some_bind] at h
    obtain ⟨hlen1, hframe1⟩ := ih ns1 (po / 2) ns' h
    obtain ⟨l, r, _, _, hidx, rfl⟩ := recomputeNode_inv h1
    refine ⟨by rw [hlen1, List.length_set], ?_⟩
    intro k hk
    have hrec : ∀ d, d ≤ p → k ≠ index d (po / 2 / 2 ^ (p - d)) := by
      intro d hd
      rw [div_pow_step hd]
      exact hk d (by omega)
    rw [hframe1 k hrec]
    have hne : index (p + 1) po ≠ k := by
      have := hk (p + 1) (le_refl _)
      simp only [Nat.sub_self, pow_zero, Nat.div_one] at this
      exact this.symm
    exact List.getElem?_set_ne hne

lemma setLoop_values (H : α → α → α) {D : Nat} (L : Nat → α) :
    ∀ (pl : Nat) (ns : List α) (po : Nat),
      ns.length = 2 ^ D - 1 → pl + 1 < D → po < 2 ^ pl →
      (∀ d i, d < D → i < 2 ^ d → (pl < d ∨ i ≠ po / 2 ^ (pl - d)) →
        ns[index d i]? = some (nodeValue H L (D - 1 - d) i)) →
      ∃ ns', setLoop H ns pl po = some ns' ∧ ns'.length = 2 ^ D - 1 ∧
        ∀ d i, d < D → i < 2 ^ d → ns'[index d i]? = some (nodeValue H L (D - 1 - d) i) := by
  intro pl
  induction pl with
  | zero =>
    intro ns po hlen hD hpo hexc
    have hpo0 : po = 0 := by
      have : (2 : Nat) ^ 0 = 1 := by norm_num
      omega
    subst hpo0
    have hl := hexc 1 0 (by omega) (by norm_num) (Or.inl Nat.zero_lt_one)
    have hr := hexc 1 1 (by omega) (by norm_num) (Or.inl Nat.zero_lt_one)
    have hidx : index 0 0 < ns.length := by
      rw [hlen]
      exact index_lt_nodes_in_tree (by omega) (two_pow_pos 0)
    have hval : H (nodeValue H L (D - 1 - 1) 0) (nodeValue H L (D - 1 - 1) 1) =
        nodeValue H L (D - 1 - 0) 0 := by
      have h2 : D - 1 - 0 = (D - 1 - 1) + 1 := by omega
      rw [h2]
      rfl
    refine ⟨ns.set (index 0 0) (H (nodeValue H L (D - 1 - 1) 0) (nodeValue H L (D - 1 - 1) 1)),
      recomputeNode_some H hl hr hidx, by rw [List.length_set, hlen], ?_⟩
    intro d i hd hi
    by_cases hc : d = 0 ∧ i = 0
    · obtain ⟨rfl, rfl⟩ := hc
      rw [List.getElem?_set_self hidx, hval]
    · have hne : index 0 0 ≠ index d i := by
        intro hcon
        obtain ⟨h1, h2⟩ := index_inj (two_pow_pos 0) hi hcon
        exact hc ⟨h1.symm, h2.symm⟩
      rw [List.getElem?_set_ne hne]
      rcases Nat.eq_zero_or_pos d with rfl | hdpos
      · refine hexc 0 i hd hi (Or.inr ?_)
        simp only [Nat.sub_self, pow_zero, Nat.div_one]
        intro hcon
        exact hc ⟨rfl, hcon⟩
      · exact hexc d i hd hi (Or.inl hdpos)
  | succ p ih =>
    intro ns po hlen hD hpo hexc
    have hmc : po * 2 = 2 * po := Nat.mul_comm po 2
    have h2p : 2 ^ (p + 2) = 2 ^ (p + 1) * 2 := pow_succ 2 (p + 1)
    have hl := hexc (p + 2) (2 * po) (by omega) (by omega) (Or.inl (by omega))
    have hr := hexc (p + 2) (2 * po + 1) (by omega) (by omega) (Or.inl (by omega))
    have hl' : getNode ns (first_child_index (p + 1) po) =
        some (nodeValue H L (D - 1 - (p + 2)) (2 * po)) := by
      show ns[index (p + 2) (po * 2)]? = _
      rw [hmc]
      exact hl
    have hr' : getNode ns (second_child_index (p + 1) po) =
        some (nodeValue H L (D - 1 - (p + 2)) (2 * po + 1)) := by
      show ns[index (p + 2) (po * 2 + 1)]? = _
      rw [hmc]
      exact hr
    have hidx : index (p + 1) po < ns.length := by
      rw [hlen]
      exact index_lt_nodes_in_tree (by omega) hpo
    have hval : H (nodeValue H L (D - 1 - (p + 2)) (2 * po))
        (nodeValue H L (D - 1 - (p + 2)) (2 * po + 1)) =
        nodeValue H L (D - 1 - (p + 1)) po := by
      have h2 : D - 1 - (p + 1) = (D - 1 - (p + 2)) + 1 := by omega
      rw [h2]
      rfl
    set ns1 := ns.set (index (p + 1) po)
      (H (nodeValue H L (D - 1 - (p + 2)) (2 * po)) (nodeValue H L (D - 1 - (p + 2)) (2 * po + 1)))
      with hns1
    have hexc1 : ∀ d i, d < D → i < 2 ^ d → (p < d ∨ i ≠ po / 2 / 2 ^ (p - d)) →
        ns1[index d i]? = some (nodeValue H L (D - 1 - d) i) := by
      intro d i hd hi hcond
      by_cases hc : d = p + 1 ∧ i = po
      · obtain ⟨rfl, rfl⟩ := hc
        rw [hns1, List.getElem?_set_self hidx, hval]
      · have hne : index (p + 1) po ≠ index d i := by
          intro hcon
          obtain ⟨h1, h2⟩ := index_inj hpo hi hcon
          exact hc ⟨h1.symm, h2.symm⟩
        rw [hns1, List.getElem?_set_ne hne]
        refine hexc d i hd hi ?_
        rcases Nat.lt_or_ge (p + 1) d with hgt | hle
        · exact Or.inl hgt
        · rcases Nat.eq_or_lt_of_le hle with hdp | hlt
          · subst hdp
            refine Or.inr ?_
            simp only [Nat.sub_self, pow_zero, Nat.div_one]
            intro hcon
            exact hc ⟨rfl, hcon⟩
          · have hdp : d ≤ p := by omega
            rcases hcond with hcond | hcond
            · omega
            · refine Or.inr ?_
              rw [← div_pow_step hdp]
              exact hcond
    obtain ⟨ns', heq', hlen', hns'⟩ := ih ns1 (po / 2) (by rw [hns1, List.length_set, hlen])
      (by omega) (by rw [Nat.div_lt_iff_lt_mul (by norm_num)]; omega) hexc1
    refine ⟨ns', ?_, hlen', hns'⟩
    simp only [setLoop, recomputeNode_some H hl' hr' hidx, Option.some_bind]
    exact heq'

lemma nodeValue_congr (H : α → α → α) {L L' : Nat → α} (h : Nat) :
    ∀ i, (∀ j, 2 ^ h * i ≤ j → j < 2 ^ h * (i + 1) → L j = L' j) →
      nodeValue H L h i = nodeValue H L' h i := by
  induction h with
  | zero =>
    intro i hagree
    exact hagree i (by simp) (by simp)
  | succ h ih =>
    intro i hagree
    have e1 : 2 ^ (h + 1) * i = 2 ^ h * (2 * i) := by rw [pow_succ]; ring
    have e2 : 2 ^ (h + 1) * (i + 1) = 2 ^ h * (2 * i + 1 + 1) := by rw [pow_succ]; ring
    have ha1 : ∀ j, 2 ^ h * (2 * i) ≤ j → j < 2 ^ h * (2 * i + 1) → L j = L' j := by
      intro j hj1 hj2
      refine hagree j (by rw [e1]; exact hj1) ?_
      rw [e2]
      exact lt_of_lt_of_le hj2 (Nat.mul_le_mul_left _ (by omega))
    have ha2 : ∀ j, 2 ^ h * (2 * i + 1) ≤ j → j < 2 ^ h * (2 * i + 1 + 1) → L j = L' j := by
      intro j hj1 hj2
      refine hagree j ?_ (by rw [e2]; exact hj2)
      rw [e1]
      exact le_trans (Nat.mul_le_mul_left _ (by omega)) hj1
    simp only [nodeValue]
    rw [ih (2 * i) ha1, ih (2 * i + 1) ha2]

lemma div_eq_of_range {off h i : Nat} (h1 : 2 ^ h * i ≤ off) (h2 : off < 2 ^ h * (i + 1)) :
    off / 2 ^ h = i :=
  Nat.div_eq_of_lt_le (by rw [Nat.mul_comm]; exact h1) (by rw [Nat.mul_comm]; exact h2)

lemma set_two_le_depth {H : α → α → α} {t : MerkleTree α} {off : Nat} {v : α}
    {t' : MerkleTree α} (hlen : t.nodes.length = 2 ^ t.depth - 1)
    (h : set H t off v = some t') : 2 ≤ t.depth := by
  by_contra hc
  have hcase : t.depth = 0 ∨ t.depth = 1 := by omega
  rcases hcase with h0 | h1
  · have hlen0 : t.nodes.length = 0 := by rw [hlen, h0]; norm_num
    have hnone : setNode t.nodes (index (t.depth - 1) off) v = none := by
      unfold setNode
      rw [if_neg (by omega)]
    unfold set at h
    rw [hnone] at h
    exact Option.noConfusion h
  · have hlen1 : t.nodes.length = 1 := by rw [hlen, h1]; norm_num
    unfold set at h
    rw [h1] at h
    rcases Nat.lt_or_ge off 1 with hoff | hoff
    · have hoff0 : off = 0 := by omega
      subst hoff0
      have hset : setNode t.nodes (index (1 - 1) 0) v = some (t.nodes.set 0 v) := by
        unfold setNode
        rw [if_pos (by rw [hlen1]; exact (by norm_num [index, nodes_in_tree] : index (1 - 1) 0 < 1))]
        norm_num [index, nodes_in_tree]
      rw [hset] at h
      simp only [Option.some_bind] at h
      have hpair : depth_offset (parent_index (1 - 1) 0) = (0, 0) := by
        norm_num [depth_offset, parent_index, index, nodes_in_tree, log2, log2Aux]
      rw [hpair] at h
      have hget : (t.nodes.set 0 v)[(1 : Nat)]? = none :=
        List.getElem?_eq_none (by rw [List.length_set, hlen1])
      have hloop : setLoop H (t.nodes.set 0 v) 0 0 = none := by
        show recomputeNode H (t.nodes.set 0 v) 0 0 = none
        unfold recomputeNode combineChildren getNode
        have hfc : first_child_index 0 0 = 1 := by norm_num [first_child_index, index, nodes_in_tree]
        rw [hfc, hget]
        rfl
      rw [hloop] at h
      exact Option.noConfusion h
    · have hnone : setNode t.nodes (index (1 - 1) off) v = none := by
        unfold setNode
        rw [if_neg (by norm_num [index, nodes_in_tree]; omega)]
      rw [hnone] at h
      exact Option.noConfusion h

lemma depth_offset_parent {D off : Nat} (hD : 2 ≤ D) (hoff : off < 2 ^ (D - 1)) :
    depth_offset (parent_index (D - 1) off) = (D - 2, off / 2) := by
  have hpow : 2 ^ (D - 1) = 2 ^ (D - 2) * 2 := by
    conv_lhs => rw [show D - 1 = (D - 2) + 1 by omega]
    rw [pow_succ]
  have hoff2 : off / 2 < 2 ^ (D - 2) := by
    rw [Nat.div_lt_iff_lt_mul (by norm_num)]
    omega
  have hparent : parent_index (D - 1) off = index (D - 2) (off / 2) := by
    unfold parent_index
    rw [show D - 1 - 1 = D - 2 by omega]
  rw [hparent]
  exact depth_offset_index hoff2

lemma set_describes {H : α → α → α} {D : Nat} {L : Nat → α} {t : MerkleTree α}
    (hdes : describes H D L t.nodes) (hdep : t.depth = D) (hD : 2 ≤ D)
    {off : Nat} (hoff : off < 2 ^ (D - 1)) (v : α) :
    ∃ ns', set H t off v = some ⟨D, ns'⟩ ∧
      describes H D (fun j => if j = off then v else L j) ns' := by
  obtain ⟨hlen, hval⟩ := hdes
  have hDm : D - 1 < D := by omega
  have hleafidx : index (D - 1) off < t.nodes.length := by
    rw [hlen]
    exact index_lt_nodes_in_tree hDm hoff
  have hpow : 2 ^ (D - 1) = 2 ^ (D - 2) * 2 := by
    have : D - 1 = (D - 2) + 1 := by omega
    rw [this, pow_succ]
  have hoff2 : off / 2 < 2 ^ (D - 2) := by
    rw [Nat.div_lt_iff_lt_mul (by norm_num)]
    omega
  have hparent : parent_index (D - 1) off = index (D - 2) (off / 2) := by
    unfold parent_index
    have : D - 1 - 1 = D - 2 := by omega
    rw [this]
  have hpair : depth_offset (parent_index (D - 1) off) = (D - 2, off / 2) := by
    rw [hparent]
    exact depth_offset_index hoff2
  set L' := fun j => if j = off then v else L j with hL'
  set ns1 := t.nodes.set (index (D - 1) off) v with hns1
  have hexc : ∀ d i, d < D → i < 2 ^ d → (D - 2 < d ∨ i ≠ (off / 2) / 2 ^ (D - 2 - d)) →
      ns1[index d i]? = some (nodeValue H L' (D - 1 - d) i) := by
    intro d i hd hi hcond
    by_cases hlf : d = D - 1 ∧ i = off
    · obtain ⟨hd', hi'⟩ := hlf
      subst hd'
      subst hi'
      rw [hns1, List.getElem?_set_self hleafidx]
      have hz : D - 1 - (D - 1) = 0 := by omega
      rw [hz]
      simp [nodeValue, hL']
    · have hne : index (D - 1) off ≠ index d i := by
        intro hcon
        obtain ⟨h1, h2⟩ := index_inj hoff hi hcon
        exact hlf ⟨h1.symm, h2.symm⟩
      rw [hns1, List.getElem?_set_ne hne, hval d i hd hi]
      have hagree : nodeValue H L (D - 1 - d) i = nodeValue H L' (D - 1 - d) i := by
        refine nodeValue_congr H (D - 1 - d) i ?_
        intro j hj1 hj2
        have hjo : j ≠ off := by
          intro hjo
          subst hjo
          by_cases hdd : d = D - 1
          · subst hdd
            have hz : D - 1 - (D - 1) = 0 := by omega
            rw [hz] at hj1 hj2
            simp only [pow_zero, Nat.one_mul] at hj1 hj2
            exact hlf ⟨rfl, by omega⟩
          · have hdle : d ≤ D - 2 := by omega
            rcases hcond with hcond | hcond
            · omega
            · rw [div_pow_step hdle] at hcond
              have hstep : D - 2 + 1 - d = D - 1 - d := by omega
              rw [hstep] at hcond
              exact hcond (div_eq_of_range hj1 hj2).symm
        rw [hL']
        simp only [if_neg hjo]
      rw [hagree]
  obtain ⟨ns', heq, hlen', hvals'⟩ := setLoop_values H L' (D - 2) ns1 (off / 2)
    (by rw [hns1, List.length_set, hlen]) (by omega) hoff2 hexc
  refine ⟨ns', ?_, hlen', hvals'⟩
  unfold set
  rw [hdep]
  have hset : setNode t.nodes (index (D - 1) off) v = some ns1 := by
    unfold setNode
    rw [if_pos hleafidx, hns1]
  rw [hset]
  simp only [Option.some_bind, hpair, heq, Option.map_some']

/-! Proof creation and verification -/

lemma div2_pow (po k : Nat) : po / 2 / 2 ^ k = po / 2 ^ (k + 1) := by
  rw [Nat.div_div_eq_div_mul, Nat.mul_comm 2 (2 ^ k), ← pow_succ]

lemma sibling_offset_lt {c co : Nat} (h : co < 2 ^ (c + 1)) :
    sibling_offset co < 2 ^ (c + 1) := by
  have h2 : 2 ^ (c + 1) = 2 ^ c * 2 := pow_succ 2 c
  unfold sibling_offset
  by_cases hp : co % 2 = 0
  · rw [if_pos hp]
    omega
  · rw [if_neg hp]
    omega

lemma proofLoop_spec {D : Nat} {ns : List α} (hlen : ns.length = 2 ^ D - 1) :
    ∀ (cl co : Nat), cl < D → co < 2 ^ cl →
      ∃ prf, proofLoop ns co cl = some prf ∧ prf.length = cl ∧
        ∀ j, j < cl → ∃ sib,
          ns[index (cl - j) (sibling_offset (co / 2 ^ j))]? = some sib ∧
          prf[j]? = some (sib, decide (co / 2 ^ j % 2 = 0)) := by
  intro cl
  induction cl with
  | zero =>
    intro co _ _
    exact ⟨[], rfl, rfl, fun j hj => absurd hj (by omega)⟩
  | succ c ih =>
    intro co hcl hco
    have hsib : index (c + 1) (sibling_offset co) < ns.length := by
      rw [hlen]
      exact index_lt_nodes_in_tree hcl (sibling_offset_lt hco)
    have hget : ns[index (c + 1) (sibling_offset co)]? =
        some (ns[index (c + 1) (sibling_offset co)]) :=
      List.getElem?_eq_getElem hsib
    obtain ⟨rest, hrest, hrlen, hrval⟩ := ih (co / 2) (by omega)
      (by rw [Nat.div_lt_iff_lt_mul (by norm_num)]; rw [pow_succ] at hco; omega)
    refine ⟨(ns[index (c + 1) (sibling_offset co)], decide (co % 2 = 0)) :: rest, ?_, ?_, ?_⟩
    · show (getNode ns (index (c + 1) (sibling_offset co))).bind _ = _
      rw [show getNode ns (index (c + 1) (sibling_offset co)) =
        some (ns[index (c + 1) (sibling_offset co)]) from hget]
      simp only [Option.some_bind, hrest, Option.map_some']
    · simp [hrlen]
    · intro j hj
      match j with
      | 0 =>
        refine ⟨ns[index (c + 1) (sibling_offset co)], ?_, ?_⟩
        · simp only [Nat.sub_zero, pow_zero, Nat.div_one]
          exact hget
        · simp only [List.getElem?_cons_zero, pow_zero, Nat.div_one]
      | j' + 1 =>
        obtain ⟨sib, hs1, hs2⟩ := hrval j' (by omega)
        refine ⟨sib, ?_, ?_⟩
        · rw [div2_pow co j'] at hs1
          have he : c - j' = c + 1 - (j' + 1) := by omega
          rw [he] at hs1
          exact hs1
        · rw [List.getElem?_cons_succ, hs2, div2_pow co j']

lemma verifyLoop_nodeValue {H : α → α → α} {D : Nat} {L : Nat → α} {ns : List α}
    (hdes : describes H D L ns) :
    ∀ (cl co : Nat) (prf : List (α × Bool)), cl < D → co < 2 ^ cl →
      proofLoop ns co cl = some prf →
      verifyLoop H (nodeValue H L (D - 1 - cl) co) prf = nodeValue H L (D - 1) 0 := by
  obtain ⟨hlen, hval⟩ := hdes
  intro cl
  induction cl with
  | zero =>
    intro co prf _ hco hpl
    obtain rfl : ([] : List (α × Bool)) = prf := Option.some.inj hpl
    have hco0 : co = 0 := by
      have : (2 : Nat) ^ 0 = 1 := by norm_num
      omega
    subst hco0
    rfl
  | succ c ih =>
    intro co prf hcl hco hpl
    have hsiblt := sibling_offset_lt hco
    have hsv := hval (c + 1) (sibling_offset co) hcl hsiblt
    rcases hrest : proofLoop ns (co / 2) c with _ | rest
    · exfalso
      have : proofLoop ns co (c + 1) = none := by
        show (getNode ns (index (c + 1) (sibling_offset co))).bind _ = none
        rw [show getNode ns (index (c + 1) (sibling_offset co)) =
          some (nodeValue H L (D - 1 - (c + 1)) (sibling_offset co)) from hsv]
        simp only [Option.some_bind, hrest, Option.map_none']
      rw [this] at hpl
      exact Option.noConfusion hpl
    have hpl' : proofLoop ns co (c + 1) =
        some ((nodeValue H L (D - 1 - (c + 1)) (sibling_offset co), decide (co % 2 = 0)) :: rest) := by
      show (getNode ns (index (c + 1) (sibling_offset co))).bind _ = _
      rw [show getNode ns (index (c + 1) (sibling_offset co)) =
        some (nodeValue H L (D - 1 - (c + 1)) (sibling_offset co)) from hsv]
      simp only [Option.some_bind, hrest, Option.map_some']
    rw [hpl'] at hpl
    obtain rfl := Option.some.inj hpl
    have hsucc : D - 1 - c = (D - 1 - (c + 1)) + 1 := by omega
    have harg : (if decide (co % 2 = 0) = true
        then H (nodeValue H L (D - 1 - (c + 1)) co)
          (nodeValue H L (D - 1 - (c + 1)) (sibling_offset co))
        else H (nodeValue H L (D - 1 - (c + 1)) (sibling_offset co))
          (nodeValue H L (D - 1 - (c + 1)) co)) =
        nodeValue H L (D - 1 - c) (co / 2) := by
      by_cases hp : co % 2 = 0
      · obtain ⟨q, rfl⟩ : ∃ q, co = 2 * q := ⟨co / 2, by omega⟩
        have hdiv : 2 * q / 2 = q := by omega
        have hso : sibling_offset (2 * q) = 2 * q + 1 := by
          unfold sibling_offset
          rw [if_pos (by omega)]
        rw [decide_eq_true hp, if_pos rfl, hsucc, hdiv, hso]
        rfl
      · obtain ⟨q, rfl⟩ : ∃ q, co = 2 * q + 1 := ⟨co / 2, by omega⟩
        have hdiv : (2 * q + 1) / 2 = q := by omega
        have hso : sibling_offset (2 * q + 1) = 2 * q := by
          unfold sibling_offset
          rw [if_neg (by omega)]
          omega
        rw [decide_eq_false hp, if_neg (by simp), hsucc, hdiv, hso]
        rfl
    have hstep : verifyLoop H (nodeValue H L (D - 1 - (c + 1)) co)
        ((nodeValue H L (D - 1 - (c + 1)) (sibling_offset co), decide (co % 2 = 0)) :: rest) =
        verifyLoop H (nodeValue H L (D - 1 - c) (co / 2)) rest := by
      show verifyLoop H _ rest = _
      rw [harg]
    rw [hstep]
    exact ih (co / 2) rest (by omega)
      (by rw [Nat.div_lt_iff_lt_mul (by norm_num)]; rw [pow_succ] at hco; omega) hrest

/-! Invariant bridges and reachability -/

lemma describes_hashInvariant {H : α → α → α} {D : Nat} {L : Nat → α} {t : MerkleTree α}
    (hdes : describes H D L t.nodes) (hdep : t.depth = D) : hashInvariant H t := by
  obtain ⟨hlen, hval⟩ := hdes
  intro d i hd hi
  rw [hdep] at hd
  have h2 : 2 ^ (d + 1) = 2 ^ d * 2 := pow_succ 2 d
  have hch1 := hval (d + 1) (i * 2) (by omega) (by omega)
  have hch2 := hval (d + 1) (i * 2 + 1) (by omega) (by omega)
  have hnode := hval d i (by omega) hi
  refine ⟨_, _, hch1, hch2, ?_⟩
  show t.nodes[index d i]? = _
  rw [hnode]
  have hsucc : D - 1 - d = (D - 1 - (d + 1)) + 1 := by omega
  have hmc : i * 2 = 2 * i := Nat.mul_comm i 2
  rw [hsucc, hmc]
  rfl

lemma hashInvariant_describes {H : α → α → α} {t : MerkleTree α} {L : Nat → α}
    (hinv : hashInvariant H t) (hlen : t.nodes.length = 2 ^ t.depth - 1)
    (hleaf : ∀ i, i < 2 ^ (t.depth - 1) → t.nodes[index (t.depth - 1) i]? = some (L i)) :
    describes H t.depth L t.nodes := by
  refine ⟨hlen, ?_⟩
  suffices haux : ∀ h d i, d < t.depth → t.depth - 1 - d = h → i < 2 ^ d →
      t.nodes[index d i]? = some (nodeValue H L h i) by
    intro d i hd hi
    exact haux (t.depth - 1 - d) d i hd rfl hi
  intro h
  induction h with
  | zero =>
    intro d i hd he hi
    have hdl : d = t.depth - 1 := by omega
    subst hdl
    rw [hleaf i hi]
    rfl
  | succ h ih =>
    intro d i hd he hi
    have hd1 : d + 1 < t.depth := by omega
    obtain ⟨l, r, hl, hr, hn⟩ := hinv d i hd1 hi
    have h2 : 2 ^ (d + 1) = 2 ^ d * 2 := pow_succ 2 d
    have hil := ih (d + 1) (i * 2) (by omega) (by omega) (by omega)
    have hir := ih (d + 1) (i * 2 + 1) (by omega) (by omega) (by omega)
    have hle : l = nodeValue H L h (i * 2) := Option.some.inj (hl.symm.trans hil)
    have hre : r = nodeValue H L h (i * 2 + 1) := Option.some.inj (hr.symm.trans hir)
    rw [show t.nodes[index d i]? = some (H l r) from hn, hle, hre]
    have hmc : i * 2 = 2 * i := Nat.mul_comm i 2
    rw [hmc]
    rfl

lemma reachable_describes {H : α → α → α} {t : MerkleTree α} (h : Reachable H t) :
    1 ≤ t.depth ∧ ∃ L, describes H t.depth L t.nodes := by
  induction h with
  | base depth v t0 hnew =>
    obtain ⟨hD, hdep, hdes⟩ := new_describes hnew
    refine ⟨by omega, ⟨fun _ => v, ?_⟩⟩
    rw [hdep]
    exact hdes
  | step t0 off v t' ht hoff hset ih =>
    obtain ⟨hD, L, hdes⟩ := ih
    have h2 : 2 ≤ t0.depth := set_two_le_depth hdes.1 hset
    obtain ⟨ns', hseteq, hdes'⟩ := set_describes hdes rfl h2 hoff v
    obtain rfl : (⟨t0.depth, ns'⟩ : MerkleTree α) = t' :=
      Option.some.inj (hseteq.symm.trans hset)
    refine ⟨?_, ⟨fun j => if j = off then v else L j, hdes'⟩⟩
    show 1 ≤ t0.depth
    omega

/-! Out-of-range behaviour -/

lemma set_out_of_range {H : α → α → α} {t : MerkleTree α} (hD : 1 ≤ t.depth)
    (hlen : t.nodes.length = 2 ^ t.depth - 1) {off : Nat} (hoff : num_leaves t ≤ off) (v : α) :
    set H t off v = none := by
  have hpow : 2 ^ t.depth = 2 ^ (t.depth - 1) * 2 := by
    conv_lhs => rw [show t.depth = (t.depth - 1) + 1 by omega]
    rw [pow_succ]
  have hidx : ¬ index (t.depth - 1) off < t.nodes.length := by
    unfold index nodes_in_tree
    rw [hlen]
    have := two_pow_pos (t.depth - 1)
    unfold num_leaves at hoff
    omega
  unfold set setNode
  rw [if_neg hidx]
  rfl

lemma create_proof_out_of_range {t : MerkleTree α} (hD : 2 ≤ t.depth)
    (hlen : t.nodes.length = 2 ^ t.depth - 1) {off : Nat} (hoff : num_leaves t ≤ off) :
    create_proof t off = none := by
  obtain ⟨c, hc⟩ : ∃ c, t.depth - 1 = c + 1 := ⟨t.depth - 2, by omega⟩
  have hpow : 2 ^ (t.depth - 1) = 2 ^ (t.depth - 2) * 2 := by
    conv_lhs => rw [show t.depth - 1 = (t.depth - 2) + 1 by omega]
    rw [pow_succ]
  have hsib : 2 ^ (t.depth - 1) ≤ sibling_offset off := by
    unfold num_leaves at hoff
    unfold sibling_offset
    by_cases hp : off % 2 = 0
    · rw [if_pos hp]
      omega
    · rw [if_neg hp]
      omega
  have hpow2 : 2 ^ t.depth = 2 ^ (t.depth - 1) * 2 := by
    conv_lhs => rw [show t.depth = (t.depth - 1) + 1 by omega]
    rw [pow_succ]
  have hgetnone : (getNode t.nodes (index (c + 1) (sibling_offset off))) = none := by
    unfold getNode
    apply List.getElem?_eq_none
    rw [hlen]
    unfold index nodes_in_tree
    rw [← hc]
    have := two_pow_pos (t.depth - 1)
    omega
  unfold create_proof
  rw [hc]
  show (getNode t.nodes (index (c + 1) (sibling_offset off))).bind _ = none
  rw [hgetnone]
  rfl

lemma create_proof_depth_le_one {t : MerkleTree α} (hD : t.depth ≤ 1) (off : Nat) :
    create_proof t off = some [] := by
  unfold create_proof
  rw [show t.depth - 1 = 0 by omega]
  rfl

lemma verifyLoop_eq_foldl (H : α → α → α) : ∀ (prf : List (α × Bool)) (v : α),
    verifyLoop H v prf = prf.foldl (fun acc p => if p.2 then H acc p.1 else H p.1 acc) v := by
  intro prf
  induction prf with
  | nil => intro v; rfl
  | cons p rest ih =>
    intro v
    cases p with
    | mk h b =>
      simp only [verifyLoop, List.foldl_cons]
      exact ih _

/-! Claim theorems -/

/-- C1: for every tree obtained by construction followed by any sequence of
successful in-range leaf updates, and every offset in `[0, num_leaves)`,
`verify_proof` applied to the current value of the leaf at that offset and
the proof returned by `create_proof offset` equals the tree's root hash. -/
theorem C1_roundtrip (H : α → α → α) (t : MerkleTree α)
    (hreach : Reachable H t) (off : Nat) (hoff : off < num_leaves t) :
    ∃ leafVal prf root,
      getNode t.nodes (index (t.depth - 1) off) = some leafVal ∧
      create_proof t off = some prf ∧
      root_hash t = some root ∧
      verify_proof t H leafVal prf = root := by
  obtain ⟨hD, L, hdes⟩ := reachable_describes hreach
  obtain ⟨hlen, hval⟩ := hdes
  have hlt : t.depth - 1 < t.depth := by omega
  have hleaf := hval (t.depth - 1) off hlt hoff
  have hz : t.depth - 1 - (t.depth - 1) = 0 := by omega
  rw [hz] at hleaf
  obtain ⟨prf, hpl, hplen, hpval⟩ := proofLoop_spec hlen (t.depth - 1) off hlt hoff
  have hroot := hval 0 0 (by omega) (by norm_num)
  have hverify := verifyLoop_nodeValue ⟨hlen, hval⟩ (t.depth - 1) off prf hlt hoff hpl
  rw [hz] at hverify
  exact ⟨nodeValue H L 0 off, prf, nodeValue H L (t.depth - 1) 0, hleaf, hpl, hroot, hverify⟩

/-- C1 witness: round trip on the concrete depth-2 tree reached by
constructing with leaf `5` and then setting leaf `0` to `7`. -/
theorem C1_roundtrip_witness :
    ∃ leafVal prf root,
      getNode t2c'.nodes (index (t2c'.depth - 1) 1) = some leafVal ∧
      create_proof t2c' 1 = some prf ∧
      root_hash t2c' = some root ∧
      verify_proof t2c' Hc leafVal prf = root :=
  C1_roundtrip Hc t2c'
    (Reachable.step t2c 0 7 t2c' (Reachable.base 2 5 t2c (by decide)) (by decide) (by decide))
    1 (by decide)

/-- C2: after a successful construction the stored-hash invariant holds,
and a successful in-range `set` on a well-formed tree satisfying the
invariant preserves it: every non-leaf node stores the hash of its left
child followed by its right child. -/
theorem C2_invariant (H : α → α → α) :
    (∀ (d : Nat) (v : α) (t : MerkleTree α), new H d v = some t → hashInvariant H t) ∧
    (∀ (t : MerkleTree α) (off : Nat) (v : α) (t' : MerkleTree α),
      1 ≤ t.depth → t.nodes.length = 2 ^ t.depth - 1 → hashInvariant H t →
      off < num_leaves t → set H t off v = some t' → hashInvariant H t') := by
  constructor
  · intro d v t hnew
    obtain ⟨hD, hdep, hdes⟩ := new_describes hnew
    exact describes_hashInvariant hdes hdep
  · intro t off v t' hD hlen hinv hoff hset
    have hleaf : ∀ i, i < 2 ^ (t.depth - 1) →
        t.nodes[index (t.depth - 1) i]? =
          some ((t.nodes[index (t.depth - 1) i]?).getD v) := by
      intro i hi
      have hidx : index (t.depth - 1) i < t.nodes.length := by
        rw [hlen]
        exact index_lt_nodes_in_tree (by omega) hi
      rw [List.getElem?_eq_getElem hidx]
      rfl
    have hdes := hashInvariant_describes hinv hlen hleaf
    have h2 := set_two_le_depth hlen hset
    obtain ⟨ns', hseteq, hdes'⟩ := set_describes hdes rfl h2 hoff v
    obtain rfl : (⟨t.depth, ns'⟩ : MerkleTree α) = t' :=
      Option.some.inj (hseteq.symm.trans hset)
    exact describes_hashInvariant hdes' rfl

/-- C2 witness: the invariant holds for the concrete trees `new Hc 2 5`
and `set Hc t2c 0 7`. -/
theorem C2_invariant_witness : hashInvariant Hc t2c ∧ hashInvariant Hc t2c' :=
  ⟨(C2_invariant Hc).1 2 5 t2c (by decide),
   (C2_invariant Hc).2 t2c 0 7 t2c' (by decide) (by decide)
     ((C2_invariant Hc).1 2 5 t2c (by decide)) (by decide) (by decide)⟩

/-- C3: the root of the layer-collapsing construction with uniform leaf
value `v` equals the `(depth - 1)`-fold iterated hash of `v` with itself,
which is also the root the naive full per-node recomputation `nodeValue`
produces; for depth 1 the root is `v` itself. -/
theorem C3_uniform_root (H : α → α → α) (depth : Nat) (v : α) (t : MerkleTree α)
    (hD : 1 ≤ depth) (hnew : new H depth v = some t) :
    root_hash t = some (iteratedHash H (depth - 1) v) ∧
    iteratedHash H (depth - 1) v = nodeValue H (fun _ => v) (depth - 1) 0 ∧
    (depth = 1 → root_hash t = some v) := by
  obtain ⟨_, hdep, hdes⟩ := new_describes hnew
  obtain ⟨hlen, hval⟩ := hdes
  have hroot := hval 0 0 (by omega) (by norm_num)
  rw [nodeValue_const] at hroot
  refine ⟨hroot, (nodeValue_const H v (depth - 1) 0).symm, fun h1 => ?_⟩
  subst h1
  exact hroot

/-- C3 witness at depth 2 with uniform leaf value 5. -/
theorem C3_uniform_root_witness :
    root_hash t2c = some (iteratedHash Hc 1 5) ∧
    iteratedHash Hc 1 5 = nodeValue Hc (fun _ => 5) 1 0 ∧
    (2 = 1 → root_hash t2c = some 5) :=
  C3_uniform_root Hc 2 5 t2c (by norm_num) (by decide)

/-- C4: on a well-formed tree satisfying the hash invariant, a successful
in-range `set` produces a root equal to the full from-scratch recomputation
`nodeValue` applied to the updated leaf assignment. -/
theorem C4_incremental_eq_full (H : α → α → α) (t : MerkleTree α)
    (off : Nat) (v : α) (t' : MerkleTree α)
    (hlen : t.nodes.length = 2 ^ t.depth - 1) (hinv : hashInvariant H t)
    (hoff : off < num_leaves t) (hset : set H t off v = some t') :
    ∀ L : Nat → α,
      (∀ i, i < num_leaves t → getNode t.nodes (index (t.depth - 1) i) = some (L i)) →
      root_hash t' = some (nodeValue H (fun j => if j = off then v else L j) (t.depth - 1) 0) := by
  intro L hleaf
  have hdes := hashInvariant_describes hinv hlen (fun i hi => hleaf i hi)
  have h2 := set_two_le_depth hlen hset
  obtain ⟨ns', hseteq, hdes'⟩ := set_describes hdes rfl h2 hoff v
  obtain rfl : (⟨t.depth, ns'⟩ : MerkleTree α) = t' :=
    Option.some.inj (hseteq.symm.trans hset)
  obtain ⟨hlen', hval'⟩ := hdes'
  exact hval' 0 0 (by omega) (by norm_num)

/-- C4 witness: incremental update of leaf 0 to 7 on `t2c` matches the
full recomputation from the updated leaf assignment. -/
theorem C4_incremental_eq_full_witness :
    root_hash t2c' = some (nodeValue Hc (fun j => if j = 0 then 7 else 5) 1 0) :=
  C4_incremental_eq_full Hc t2c 0 7 t2c' (by decide)
    (by
      intro d i hd hi
      have hdd : t2c.depth = 2 := rfl
      have hd0 : d = 0 := by omega
      subst hd0
      have hi0 : i = 0 := by
        have h1 : (2 : Nat) ^ 0 = 1 := by norm_num
        omega
      subst hi0
      exact ⟨5, 5, rfl, rfl, rfl⟩)
    (by decide) (by decide) (fun _ => 5) (by decide)

/-- C5 counterexample: on the depth-1 tree `new Hc 1 5`, the offset `1` is
out of range (`num_leaves = 1`), yet `create_proof` does not fail: it
returns the empty proof, contradicting the claim that both `set` and
`create_proof` reject every out-of-range offset. -/
theorem C5_counterexample :
    new Hc 1 5 = some t1c ∧ num_leaves t1c ≤ 1 ∧
    create_proof t1c 1 = some [] ∧ create_proof t1c 1 ≠ none := by
  refine ⟨by decide, by decide, by decide, by decide⟩

/-- C5 amended: on a well-formed tree, an out-of-range offset makes `set`
fail with an index error (returning no tree, so the tree value is left
unmodified), and makes `create_proof` fail whenever the depth is at least
2; on a depth-1 tree `create_proof` instead succeeds with the empty
proof (the code performs no range check there). -/
theorem C5_amended (H : α → α → α) (t : MerkleTree α) (off : Nat) (v : α)
    (hD : 1 ≤ t.depth) (hlen : t.nodes.length = 2 ^ t.depth - 1)
    (hoff : num_leaves t ≤ off) :
    set H t off v = none ∧
    (2 ≤ t.depth → create_proof t off = none) ∧
    (t.depth = 1 → create_proof t off = some []) :=
  ⟨set_out_of_range hD hlen hoff v,
   fun h2 => create_proof_out_of_range h2 hlen hoff,
   fun h1 => create_proof_depth_le_one (by omega) off⟩

/-- C5 witness: out-of-range offset 2 on the concrete depth-2 tree. -/
theorem C5_amended_witness :
    set Hc t2c 2 9 = none ∧
    (2 ≤ t2c.depth → create_proof t2c 2 = none) ∧
    (t2c.depth = 1 → create_proof t2c 2 = some []) :=
  C5_amended Hc t2c 2 9 (by decide) (by decide) (by decide)

/-- C6: `verify_proof` equals the left fold that starts at the candidate
leaf value and combines `hash(acc, sibling)` for a true flag and
`hash(sibling, acc)` for a false flag; it is total (always returns a
digest, for proofs of any length, never comparing to the stored root) and
its result does not depend on the tree receiver at all. -/
theorem C6_verify_fold (H : α → α → α) (t : MerkleTree α) (value : α)
    (proof : List (α × Bool)) :
    verify_proof t H value proof =
      proof.foldl (fun acc p => if p.2 then H acc p.1 else H p.1 acc) value ∧
    ∀ t' : MerkleTree α, verify_proof t' H value proof = verify_proof t H value proof :=
  ⟨verifyLoop_eq_foldl H proof value, fun _ => rfl⟩

/-- C7: on a well-formed tree with an in-range offset, `create_proof`
returns exactly `depth - 1` pairs ordered leaf to root; the `i`-th pair
holds the current digest of the sibling of the path node at layer
`depth - 1 - i` (path offset `off / 2^i`) and a flag that is true exactly
when that path node is a left child, i.e. when `off / 2^i` is even.
`create_proof` takes the tree immutably and returns only the proof, so the
tree is not mutated. -/
theorem C7_create_proof_spec (t : MerkleTree α) (off : Nat)
    (hD : 1 ≤ t.depth) (hlen : t.nodes.length = 2 ^ t.depth - 1)
    (hoff : off < num_leaves t) :
    ∃ prf, create_proof t off = some prf ∧ prf.length = t.depth - 1 ∧
      ∀ i, i < t.depth - 1 → ∃ sib,
        getNode t.nodes (index (t.depth - 1 - i) (sibling_offset (off / 2 ^ i))) = some sib ∧
        prf[i]? = some (sib, decide (off / 2 ^ i % 2 = 0)) := by
  obtain ⟨prf, h1, h2, h3⟩ := proofLoop_spec hlen (t.depth - 1) off (by omega) hoff
  exact ⟨prf, h1, h2, h3⟩

/-- C7 witness: the proof for offset 0 of the concrete depth-2 tree. -/
theorem C7_create_proof_spec_witness :
    ∃ prf, create_proof t2c' 0 = some prf ∧ prf.length = t2c'.depth - 1 ∧
      ∀ i, i < t2c'.depth - 1 → ∃ sib,
        getNode t2c'.nodes (index (t2c'.depth - 1 - i) (sibling_offset (0 / 2 ^ i))) = some sib ∧
        prf[i]? = some (sib, decide (0 / 2 ^ i % 2 = 0)) :=
  C7_create_proof_spec t2c' 0 (by decide) (by decide) (by decide)

/-- C8: a successful in-range `set` changes only the leaf node at the
given offset and the nodes on the single ancestor path from that leaf to
the root: every entry at any other position is exactly its value before the
call, and the node-array length and the depth field are unchanged. -/
theorem C8_frame (H : α → α → α) (t : MerkleTree α) (off : Nat) (v : α)
    (t' : MerkleTree α) (hoff : off < num_leaves t) (hset : set H t off v = some t') :
    t'.depth = t.depth ∧ t'.nodes.length = t.nodes.length ∧
    ∀ k, k ≠ index (t.depth - 1) off →
      (∀ d, d + 1 < t.depth → k ≠ index d (off / 2 ^ (t.depth - 1 - d))) →
      getNode t'.nodes k = getNode t.nodes k := by
  unfold set at hset
  rcases hsn : setNode t.nodes (index (t.depth - 1) off) v with _ | ns1
  · rw [hsn] at hset
    exact absurd hset (by simp)
  rw [hsn] at hset
  simp only [Option.some_bind] at hset
  rcases hsl : setLoop H ns1 (depth_offset (parent_index (t.depth - 1) off)).1
      (depth_offset (parent_index (t.depth - 1) off)).2 with _ | ns'
  · rw [hsl] at hset
    exact absurd hset (by simp)
  rw [hsl] at hset
  simp only [Option.map_some'] at hset
  obtain rfl : (⟨t.depth, ns'⟩ : MerkleTree α) = t' := Option.some.inj hset
  have hsn' : index (t.depth - 1) off < t.nodes.length ∧
      ns1 = t.nodes.set (index (t.depth - 1) off) v := by
    unfold setNode at hsn
    by_cases hidx : index (t.depth - 1) off < t.nodes.length
    · rw [if_pos hidx] at hsn
      exact ⟨hidx, (Option.some.inj hsn).symm⟩
    · rw [if_neg hidx] at hsn
      exact absurd hsn (by simp)
  obtain ⟨hidx, rfl⟩ := hsn'
  obtain ⟨hlen', hframe⟩ := setLoop_changed H _ _ _ _ hsl
  refine ⟨rfl, by rw [hlen', List.length_set], ?_⟩
  intro k hk1 hk2
  have hmain : ∀ d, d ≤ (depth_offset (parent_index (t.depth - 1) off)).1 →
      k ≠ index d ((depth_offset (parent_index (t.depth - 1) off)).2 /
        2 ^ ((depth_offset (parent_index (t.depth - 1) off)).1 - d)) := by
    rcases Nat.lt_or_ge t.depth 2 with hd1 | hd2
    · have hoff0 : off = 0 := by
        unfold num_leaves at hoff
        have hz : t.depth - 1 = 0 := by omega
        rw [hz] at hoff
        norm_num at hoff
        exact hoff
      subst hoff0
      have hz : t.depth - 1 = 0 := by omega
      have hpp : parent_index (t.depth - 1) 0 = 0 := by
        unfold parent_index index nodes_in_tree
        rw [hz]
        norm_num
      have hdo : depth_offset 0 = (0, 0) := by
        norm_num [depth_offset, log2, log2Aux, nodes_in_tree]
      rw [hpp, hdo]
      intro d hd
      have hd0 : d = 0 := by omega
      subst hd0
      rw [hz] at hk1
      simpa using hk1
    · rw [depth_offset_parent hd2 hoff]
      intro d hd
      show k ≠ index d (off / 2 / 2 ^ (t.depth - 2 - d))
      rw [div_pow_step hd, show t.depth - 2 + 1 - d = t.depth - 1 - d by omega]
      exact hk2 d (by omega)
  have h1 := hframe k hmain
  show ns'[k]? = t.nodes[k]?
  rw [h1, List.getElem?_set_ne (Ne.symm hk1)]

/-- C8 witness: setting leaf 0 of the concrete depth-2 tree changes only
the leaf and its ancestor path. -/
theorem C8_frame_witness :
    t2c'.depth = t2c.depth ∧ t2c'.nodes.length = t2c.nodes.length ∧
    ∀ k, k ≠ index (t2c.depth - 1) 0 →
      (∀ d, d + 1 < t2c.depth → k ≠ index d (0 / 2 ^ (t2c.depth - 1 - d))) →
      getNode t2c'.nodes k = getNode t2c.nodes k :=
  C8_frame Hc t2c 0 7 t2c' (by decide) (by decide)

/-- C9: construction with depth < 1 fails with a configuration error and
returns no tree; for every depth at least 1 it succeeds, the node array
has length exactly `2^depth - 1`, and `num_leaves` equals `2^(depth-1)`. -/
theorem C9_construction (H : α → α → α) (v : α) :
    (∀ depth, depth < 1 → new H depth v = none) ∧
    (∀ depth, 1 ≤ depth → ∃ t, new H depth v = some t ∧
      t.nodes.length = 2 ^ depth - 1 ∧ num_leaves t = 2 ^ (depth - 1)) := by
  constructor
  · intro depth hd
    unfold new
    rw [if_pos hd]
  · intro depth hd
    obtain ⟨t, heq, hdep, hlen, _⟩ := new_spec H depth v hd
    refine ⟨t, heq, hlen, ?_⟩
    unfold num_leaves
    rw [hdep]

/-- C9 witness: depth 0 fails; depth 2 succeeds with the right sizes. -/
theorem C9_construction_witness :
    new Hc 0 5 = none ∧ ∃ t, new Hc 2 5 = some t ∧
      t.nodes.length = 2 ^ 2 - 1 ∧ num_leaves t = 2 ^ (2 - 1) :=
  ⟨(C9_construction Hc 5).1 0 (by norm_num), (C9_construction Hc 5).2 2 (by norm_num)⟩

/-- C10: evaluation of the bug behind the claim. On a tree constructed
with depth 1, the offset 0 is in range (`num_leaves = 1`), yet `set`
fails: the walk to the parent of the root underflows the layer index and
the first child access reads index 1 of the 1-element node array, which is
out of bounds, so the claim that all node-array accesses of `set` stay in
bounds for in-range offsets is violated by the code at depth 1. -/
theorem C10_set_depth1_oob (H : α → α → α) (v w : α) (t : MerkleTree α)
    (hnew : new H 1 v = some t) : 0 < num_leaves t ∧ set H t 0 w = none := by
  obtain ⟨_, hdep, hdes⟩ := new_describes hnew
  constructor
  · unfold num_leaves
    exact two_pow_pos _
  · rcases hres : set H t 0 w with _ | t'
    · rfl
    · exfalso
      have hlen : t.nodes.length = 2 ^ t.depth - 1 := by
        rw [hdep]
        exact hdes.1
      have h2 := set_two_le_depth hlen hres
      omega

/-- C10 witness: the concrete depth-1 tree with in-range offset 0. -/
theorem C10_set_depth1_oob_witness : 0 < num_leaves t1c ∧ set Hc t1c 0 7 = none :=
  C10_set_depth1_oob Hc 5 7 t1c (by decide)

end MerkleTree
